import Mathlib

/-!
Verification of the test-case-helper CSV import/reconciliation/export pipeline.

Shallow embedding of the logic in `src/main.js`.  JavaScript strings are
modelled as `List Char`; JavaScript string whitespace (as used by `trim` and
the regex class `\s`) is modelled by the ASCII whitespace characters.
Fields that the source keeps as possibly-empty strings (`actual`,
`updatedAt`) are `List Char` with `[]` standing for the empty string, and
JavaScript's `x || d` fallback on strings is modelled by `orDefault`.
-/

namespace TestCaseHelper

/-- Convert a Lean string literal to the `List Char` representation used
throughout the embedding. -/
def cs (s : String) : List Char := s.data

/-- ASCII whitespace, modelling the JavaScript whitespace class used by
`String.prototype.trim` and the regex class `\s`. -/
def isWsChar (c : Char) : Bool :=
  c = ' ' || c = '\t' || c = '\n' || c = '\r' || c = '\x0b' || c = '\x0c'

/-- JavaScript `String.prototype.trim`: drop whitespace from both ends. -/
def trimChars (l : List Char) : List Char :=
  ((l.dropWhile isWsChar).reverse.dropWhile isWsChar).reverse

/-- JavaScript `a || b` on strings: `a` when non-empty (truthy), else `b`. -/
def orDefault (a b : List Char) : List Char :=
  if a = [] then b else a

/-- Decimal rendering of a count, modelling JavaScript number-to-string
coercion for the non-negative integers that occur in report cells. -/
def natToChars (n : Nat) : List Char := (Nat.repr n).data

/-- Does the character force CSV quoting?  Mirrors the regex `[",\n]` in
`escapeCsvField`. -/
def needsQuote (c : Char) : Bool :=
  c = '"' || c = ',' || c = '\n'

/-- Double every internal quote, the `value.replace(/"/g, litQQ)` step of
`escapeCsvField`. -/
def doubleQ : List Char → List Char
  | [] => []
  | c :: rest => if c = '"' then '"' :: '"' :: doubleQ rest else c :: doubleQ rest

/-- `escapeCsvField` from `src/main.js`: quote the field and double internal
quotes when it contains a comma, a double quote or a newline; otherwise emit
it bare. -/
def escapeCsvField (s : List Char) : List Char :=
  if s.any needsQuote then '"' :: (doubleQ s ++ ['"']) else s

/-- The character loop of `splitCsvLine`: `cur` is the reversed accumulator
for the current cell, the `Bool` is the `inQuotes` flag.  Outside quotes a
quote opens quoting and a comma ends the cell.  Inside quotes a quote looks
at the next character (the `nextIsQuote` test of the source): another quote
emits a literal quote and is skipped, anything else closes quoting and that
character is then handled by the ordinary out-of-quotes step, which is
inlined here so that the recursion is structural. -/
def splitCsvLineAux : List Char → List Char → Bool → List (List Char)
  | [], cur, _ => [cur.reverse]
  | c :: rest, cur, false =>
    if c = '"' then splitCsvLineAux rest cur true
    else if c = ',' then cur.reverse :: splitCsvLineAux rest [] false
    else splitCsvLineAux rest (c :: cur) false
  | c :: rest, cur, true =>
    if c = '"' then
      match rest with
      | d :: rest2 =>
        if d = '"' then splitCsvLineAux rest2 ('"' :: cur) true
        else if d = ',' then cur.reverse :: splitCsvLineAux rest2 [] false
        else splitCsvLineAux rest2 (d :: cur) false
      | [] => [cur.reverse]
    else splitCsvLineAux rest (c :: cur) true

/-- `splitCsvLine` from `src/main.js`. -/
def splitCsvLine (line : List Char) : List (List Char) :=
  splitCsvLineAux line [] false

/-- Drop one trailing carriage return, if present. -/
def stripCR (l : List Char) : List Char :=
  if l.getLast? = some '\r' then l.dropLast else l

/-- Split on the regex `\r?\n`: every `\n` is a delimiter, and the optional
`\r` directly before it belongs to the delimiter, so one trailing `\r` is
stripped from the fragment in front of each delimiter.  A `\r` not followed
by `\n` is ordinary text and is kept (in particular in the final
fragment). -/
def splitLinesAux : List Char → List Char → List (List Char)
  | [], cur => [cur.reverse]
  | c :: rest, cur =>
    if c = '\n' then stripCR cur.reverse :: splitLinesAux rest []
    else splitLinesAux rest (c :: cur)

/-- `text.split` on the regex used by `parseCsv`. -/
def splitLines (text : List Char) : List (List Char) :=
  splitLinesAux text []

/-- `parseCsv` from `src/main.js`: split into physical lines, trim each line,
drop empty (falsy) lines, split each remaining line into cells. -/
def parseCsv (text : List Char) : List (List (List Char)) :=
  (((splitLines text).map trimChars).filter (fun l => !l.isEmpty)).map splitCsvLine

/-- The tail of a match of the regex `<br\s*\/?>` after `<b` and `r` have
been consumed: skip whitespace (`\s*`), then accept `/>` or `>` and return
the remaining text.  Greedy whitespace consumption is exact here because a
shorter consumption would leave a whitespace character where only `/` or `>`
can match. -/
def brTail (rest : List Char) : Option (List Char) :=
  match rest.dropWhile isWsChar with
  | '/' :: '>' :: tail => some tail
  | '>' :: tail => some tail
  | _ => none

/-- Try to match the regex `<br\s*\/?>` (case-insensitive, as compiled with
the `i` flag) at the head of the text; on success return the text after the
match. -/
def matchBr (l : List Char) : Option (List Char) :=
  match l with
  | a :: b :: r :: rest =>
    if a = '<' ∧ (b = 'b' ∨ b = 'B') ∧ (r = 'r' ∨ r = 'R') then brTail rest
    else none
  | _ => none

/-- Global replacement of the regex `<br\s*\/?>` by a newline: scan left to
right, replace each leftmost match and continue after it. -/
def replaceBr : List Char → List Char
  | [] => []
  | c :: rest =>
    match h : matchBr (c :: rest) with
    | some t => '\n' :: replaceBr t
    | none => c :: replaceBr rest
termination_by l => l.length
decreasing_by
  · have hb : ∀ {r2 t2 : List Char}, brTail r2 = some t2 → t2.length < r2.length + 1 := by
      intro r2 t2 hbt
      unfold brTail at hbt
      have hd : (r2.dropWhile isWsChar).length ≤ r2.length :=
        (List.dropWhile_sublist isWsChar).length_le
      split at hbt
      · rename_i tail heq
        have : tail.length + 2 = (r2.dropWhile isWsChar).length := by
          rw [heq]
          simp
        cases hbt
        omega
      · rename_i tail heq
        have : tail.length + 1 = (r2.dropWhile isWsChar).length := by
          rw [heq]
          simp
        cases hbt
        omega
      · cases hbt
    unfold matchBr at h
    split at h
    · rename_i a b r rest3 heq
      split at h
      · have h1 := hb h
        have h2 : rest.length = rest3.length + 2 := by
          have h3 := congrArg List.length heq
          simpa using h3
        simp only [List.length_cons]
        omega
      · cases h
    · cases h
  · simp

/-- Split on the regex `\n+`: a maximal run of newlines is one delimiter.
The `Bool` records whether the scanner is inside a newline run. -/
def splitNlAux : List Char → List Char → Bool → List (List Char)
  | [], cur, _ => [cur.reverse]
  | c :: rest, cur, b =>
    if c = '\n' then
      if b then splitNlAux rest cur true
      else cur.reverse :: splitNlAux rest [] true
    else splitNlAux rest (c :: cur) false

/-- `raw.split` on the regex `\n+` as used by `normalizeSteps`. -/
def splitNl (l : List Char) : List (List Char) :=
  splitNlAux l [] false

/-- `normalizeSteps` from `src/main.js`: turn each `<br>` marker into a
newline, split on newline runs, trim each fragment and drop the empty
(falsy) ones. -/
def normalizeSteps (raw : List Char) : List (List Char) :=
  (((splitNl (replaceBr raw)).map trimChars).filter (fun l => !l.isEmpty))

/-- The `STATUS_OPTIONS` constant: not-run, passed, failed, blocked,
skipped. -/
def statusOptionsL : List (List Char) :=
  [cs "未执行", cs "通过", cs "失败", cs "阻塞", cs "跳过"]

/-- The `PRIORITY_ORDER` constant: high, middle, low. -/
def priorityOrderL : List (List Char) :=
  [cs "高", cs "中", cs "低"]

/-- One test case record, the element type of the in-memory collection.
`actual` and `updatedAt` use `[]` for the empty / absent value, exactly as
the source stores the empty string. -/
structure TestCase where
  id : List Char
  module : List Char
  scenario : List Char
  precondition : List Char
  steps : List (List Char)
  expected : List Char
  priority : List Char
  remark : List Char
  status : List Char
  actual : List Char
  updatedAt : List Char
deriving DecidableEq

/-- The status-count object built by `summarize`: one key per entry of
`STATUS_OPTIONS`, each starting at 0. -/
structure StatusCount where
  notRun : Nat
  passed : Nat
  failed : Nat
  blocked : Nat
  skipped : Nat
deriving DecidableEq

/-- The priority-count object built by `summarize`: keys for the three known
priorities plus the catch-all bucket. -/
structure PriorityCount where
  high : Nat
  mid : Nat
  low : Nat
  other : Nat
deriving DecidableEq

/-- The loop body of `summarize` for the status counts: increment the entry
for `st` when `st` is a known status key, otherwise leave the object
unchanged (`statusCount[c.status] !== undefined` guard). -/
def bumpStatus (sc : StatusCount) (st : List Char) : StatusCount :=
  if st = cs "未执行" then { sc with notRun := sc.notRun + 1 }
  else if st = cs "通过" then { sc with passed := sc.passed + 1 }
  else if st = cs "失败" then { sc with failed := sc.failed + 1 }
  else if st = cs "阻塞" then { sc with blocked := sc.blocked + 1 }
  else if st = cs "跳过" then { sc with skipped := sc.skipped + 1 }
  else sc

/-- The loop body of `summarize` for the priority counts: a known priority
bumps its own entry, anything else bumps the catch-all bucket. -/
def bumpPriority (pc : PriorityCount) (p : List Char) : PriorityCount :=
  if p = cs "高" then { pc with high := pc.high + 1 }
  else if p = cs "中" then { pc with mid := pc.mid + 1 }
  else if p = cs "低" then { pc with low := pc.low + 1 }
  else { pc with other := pc.other + 1 }

/-- The object returned by `summarize`. -/
structure Summary where
  total : Nat
  executed : Nat
  statusCount : StatusCount
  priorityCount : PriorityCount
  passRate : Nat
deriving DecidableEq

/-- `Math.round(passed / total * 100)` for `total > 0`, modelled exactly on
the rationals: `round(x) = floor(x + 1/2)` for the non-negative argument,
i.e. `(200 * passed + total) / (2 * total)` in natural division. -/
def roundRate (passed total : Nat) : Nat :=
  (200 * passed + total) / (2 * total)

/-- `summarize` from `src/main.js`. -/
def summarize (cases : List TestCase) : Summary :=
  let sc := cases.foldl (fun a c => bumpStatus a c.status) ⟨0, 0, 0, 0, 0⟩
  let pc := cases.foldl (fun a c => bumpPriority a c.priority) ⟨0, 0, 0, 0⟩
  let total := cases.length
  let executed := total - sc.notRun
  let passRate := if total = 0 then 0 else roundRate sc.passed total
  ⟨total, executed, sc, pc, passRate⟩

/-- Cell access `row[i] || ''`: out-of-range and empty both give the empty
string. -/
def getCell (row : List (List Char)) (i : Nat) : List Char :=
  (row.get? i).getD []

/-- The `savedMap` lookup of `applyRows`: the `reduce` writes each case under
its id in order, so a lookup returns the last case with that id. -/
def findSaved (cases : List TestCase) (id : List Char) : Option TestCase :=
  cases.foldl (fun acc c => if c.id = id then some c else acc) none

/-- One row of an import turned into a `TestCase` by the body of
`applyRows`, merging prior execution state found in the collection being
replaced. -/
def mergeRow (prior : List TestCase) (row : List (List Char)) : TestCase :=
  let id := getCell row 0
  let saved := findSaved prior id
  { id := id
    module := getCell row 1
    scenario := getCell row 2
    precondition := getCell row 3
    steps := normalizeSteps (getCell row 4)
    expected := getCell row 5
    priority := getCell row 6
    remark := getCell row 7
    status := orDefault ((saved.map TestCase.status).getD []) (cs "未执行")
    actual := orDefault ((saved.map TestCase.actual).getD []) []
    updatedAt := orDefault ((saved.map TestCase.updatedAt).getD []) [] }

/-- Is a needle an initial segment of the haystack? -/
def leadEq : List Char → List Char → Bool
  | [], _ => true
  | _ :: _, [] => false
  | a :: as, b :: bs => a = b && leadEq as bs

/-- `String.prototype.includes`: the needle occurs somewhere in the
haystack. -/
def containsSub (needle hay : List Char) : Bool :=
  match hay with
  | [] => needle.isEmpty
  | _ :: rest => leadEq needle hay || containsSub needle rest

/-- The header test of `applyRows`: `headerLine[0] && headerLine[0]
.includes(marker)` — the first cell of the first row is non-empty and
contains the marker text. -/
def headerStart (rows : List (List (List Char))) : Nat :=
  match rows.head? with
  | none => 0
  | some headerLine =>
    if !(getCell headerLine 0).isEmpty ∧ containsSub (cs "测试用例") (getCell headerLine 0) then 1
    else 0

/-- `applyRows` from `src/main.js`, restricted to its effect on the case
collection: an empty import leaves the collection unchanged (early return);
otherwise the optional header row is skipped and every remaining row is
merged against the prior collection. -/
def applyRows (prior : List TestCase) (rows : List (List (List Char))) : List TestCase :=
  if rows = [] then prior
  else (rows.drop (headerStart rows)).map (mergeRow prior)

/-- One row of the abnormal-case section of the report. -/
def abnormalRowOf (item : TestCase) : List (List Char) :=
  [item.id, orDefault item.module (cs "未分组"), item.scenario, item.status,
   orDefault item.actual (orDefault item.remark (cs "-"))]

/-- One row of the full-listing section of the report. -/
def listingRowOf (item : TestCase) : List (List Char) :=
  [item.id, orDefault item.module (cs "未分组"), item.scenario, item.status,
   orDefault item.priority (cs "-"), item.expected,
   orDefault item.actual (orDefault item.remark (cs "-"))]

/-- The summary block of the report: label/value rows with the counts, the
pass rate and the priority breakdown. -/
def summaryRowsOf (cases : List TestCase) : List (List (List Char)) :=
  let s := summarize cases
  [[cs "摘要", cs "值"],
   [cs "用例总数", natToChars s.total],
   [cs "已执行", natToChars s.executed],
   [cs "通过", natToChars s.statusCount.passed],
   [cs "失败", natToChars s.statusCount.failed],
   [cs "阻塞", natToChars s.statusCount.blocked],
   [cs "跳过", natToChars s.statusCount.skipped],
   [cs "通过率", natToChars s.passRate ++ cs "%"],
   [cs "高/中/低优先级",
    natToChars s.priorityCount.high ++ cs "/" ++ natToChars s.priorityCount.mid
      ++ cs "/" ++ natToChars s.priorityCount.low]]

/-- The fixed header row of the abnormal-case section. -/
def abnormalHeaderRow : List (List Char) :=
  [cs "异常用例汇总", cs "模块", cs "场景", cs "状态", cs "备注/实际"]

/-- The fixed header row of the full-listing section. -/
def listingHeaderRow : List (List Char) :=
  [cs "当前筛选用例", cs "模块", cs "场景", cs "状态", cs "优先级", cs "预期结果", cs "实际/备注"]

/-- The abnormal-case section: its header, then one row per failed case
followed by one row per blocked case, or the fixed placeholder row when
there is no abnormal case. -/
def abnormalSection (cases : List TestCase) : List (List (List Char)) :=
  let abnormal := cases.filter (fun c => c.status = cs "失败")
    ++ cases.filter (fun c => c.status = cs "阻塞")
  abnormalHeaderRow ::
    (if abnormal.isEmpty then [[cs "无异常", [], [], [], []]]
     else abnormal.map abnormalRowOf)

/-- The full-listing section: its header, then one row per given case. -/
def listingSection (cases : List TestCase) : List (List (List Char)) :=
  listingHeaderRow :: cases.map listingRowOf

/-- The row list built by `buildReportCsv` in `src/main.js`, transcribed in
the order the source pushes the rows. -/
def buildReportRows (cases : List TestCase) : List (List (List Char)) :=
  let s := summarize cases
  let failed := cases.filter (fun c => c.status = cs "失败")
  let blocked := cases.filter (fun c => c.status = cs "阻塞")
  let abnormal := failed ++ blocked
  ([[cs "摘要", cs "值"],
    [cs "用例总数", natToChars s.total],
    [cs "已执行", natToChars s.executed],
    [cs "通过", natToChars s.statusCount.passed],
    [cs "失败", natToChars s.statusCount.failed],
    [cs "阻塞", natToChars s.statusCount.blocked],
    [cs "跳过", natToChars s.statusCount.skipped],
    [cs "通过率", natToChars s.passRate ++ cs "%"],
    [cs "高/中/低优先级",
     natToChars s.priorityCount.high ++ cs "/" ++ natToChars s.priorityCount.mid
       ++ cs "/" ++ natToChars s.priorityCount.low],
    [],
    [cs "异常用例汇总", cs "模块", cs "场景", cs "状态", cs "备注/实际"]]
   ++ (if abnormal.isEmpty then [[cs "无异常", [], [], [], []]]
       else abnormal.map abnormalRowOf))
  ++ [[], [cs "当前筛选用例", cs "模块", cs "场景", cs "状态", cs "优先级", cs "预期结果", cs "实际/备注"]]
  ++ cases.map listingRowOf

/-- `rows.map(r => r.map(escapeCsvField).join(sep)).join(nl)`. -/
def renderCsvRows (rows : List (List (List Char))) : List Char :=
  List.intercalate ['\n'] (rows.map (fun r => List.intercalate [','] (r.map escapeCsvField)))

/-- `buildReportCsv` from `src/main.js`. -/
def buildReportCsv (cases : List TestCase) : List Char :=
  renderCsvRows (buildReportRows cases)

/-- The JSON value stored under the storage key, with every field optional:
a snapshot written by a different layout is read permissively. -/
structure RawSnapshot where
  cases : Option (List TestCase)
  sourceFile : Option (List Char)
  lastSavedAt : Option (List Char)
deriving DecidableEq

/-- The contents of the local-storage slot: no value, a value that fails
`JSON.parse`, or a parsed snapshot. -/
inductive StorageCell where
  | empty : StorageCell
  | corrupt : StorageCell
  | blob : RawSnapshot → StorageCell
deriving DecidableEq

/-- The component state the claims are about: the case collection, the
source filename, the last-save timestamp, the dirty flag and the storage
slot. -/
structure AppState where
  cases : List TestCase
  sourceFile : List Char
  lastSavedAt : Option (List Char)
  dirty : Bool
  storage : StorageCell
deriving DecidableEq

/-- The initial Alpine data object: no cases, no filename, empty storage. -/
def initState : AppState :=
  ⟨[], [], none, false, StorageCell.empty⟩

/-- `persist` from `src/main.js`: write the full snapshot to storage and
stamp `lastSavedAt`. -/
def persist (st : AppState) (now : List Char) : AppState :=
  { st with
    storage := StorageCell.blob ⟨some st.cases, some st.sourceFile, some now⟩,
    lastSavedAt := some now,
    dirty := false }

/-- The state transition of `applyRows`: an empty import only shows a
notice; otherwise merge, replace the collection and filename, clear the
dirty flag and persist. -/
def stateApplyRows (st : AppState) (rows : List (List (List Char)))
    (filename now : List Char) : AppState :=
  if rows = [] then st
  else persist { st with cases := applyRows st.cases rows, sourceFile := filename, dirty := false } now

/-- `setStatus` from `src/main.js` on the case at index `i`, followed by
`markDirty` (which persists): out-of-range indices leave the state alone
(the UI only passes live rows). -/
def stateSetStatus (st : AppState) (i : Nat) (status now : List Char) : AppState :=
  match st.cases.get? i with
  | none => st
  | some c =>
    persist { st with cases := st.cases.set i { c with status := status, updatedAt := now },
                      dirty := true } now

/-- `data.lastSavedAt || null`: an absent or empty (falsy) timestamp becomes
null. -/
def orNullStr (o : Option (List Char)) : Option (List Char) :=
  match o with
  | some t => if t = [] then none else some t
  | none => none

/-- `restoreFromLocal` from `src/main.js`: a missing blob changes nothing;
a blob that fails to parse is caught and changes nothing; a parsed blob is
read permissively, defaulting each absent field. -/
def restoreFromLocal (st : AppState) : AppState :=
  match st.storage with
  | StorageCell.empty => st
  | StorageCell.corrupt => st
  | StorageCell.blob r =>
    { st with
      cases := r.cases.getD [],
      sourceFile := r.sourceFile.getD [],
      lastSavedAt := orNullStr r.lastSavedAt }

/-- `clearLocal` from `src/main.js`: remove the stored blob. -/
def stateClearLocal (st : AppState) : AppState :=
  { st with storage := StorageCell.empty }

/-- The user-driven operations the status invariant quantifies over. -/
inductive Op where
  | importRows (rows : List (List (List Char))) (filename now : List Char)
  | setStatus (i : Nat) (status now : List Char)
  | restore
  | clear
deriving DecidableEq

/-- One step of the event loop. -/
def step (st : AppState) : Op → AppState
  | Op.importRows rows f now => stateApplyRows st rows f now
  | Op.setStatus i s now => stateSetStatus st i s now
  | Op.restore => restoreFromLocal st
  | Op.clear => stateClearLocal st

/-- Run a sequence of operations from the initial state. -/
def run (ops : List Op) : AppState :=
  ops.foldl step initState

/-- The statuses a `setStatus` operation can carry: the UI offers exactly
the entries of `STATUS_OPTIONS`. -/
def validOp : Op → Prop
  | Op.setStatus _ s _ => s ∈ statusOptionsL
  | _ => True

instance : DecidablePred validOp := fun op => by
  cases op <;> simp [validOp] <;> infer_instance

/-- A collection whose i-th case has only an id and a status, used by the
scenario claims. -/
def mkCase (id status : List Char) : TestCase :=
  ⟨id, [], [], [], [], [], [], [], status, [], []⟩

/-- The status part of the induction invariant for C6: every in-memory case
and every case stored in a parsed snapshot has an enum status. -/
def statusInv (st : AppState) : Prop :=
  (∀ c ∈ st.cases, c.status ∈ statusOptionsL)
  ∧ (∀ r, st.storage = StorageCell.blob r →
      ∀ c ∈ r.cases.getD [], c.status ∈ statusOptionsL)

example : parseCsv (cs "a,b\nc") = [[cs "a", cs "b"], [cs "c"]] := by decide
example : escapeCsvField (cs "a,b") = cs "\"a,b\"" := by decide
example : splitCsvLine (cs "\"a\"\"b\",c") = [cs "a\"b", cs "c"] := by decide
example : splitCsvLine (cs "\"abc") = [cs "abc"] := by decide
example : parseCsv (cs "  x , y  \n\n") = [[cs "x ", cs " y"]] := by decide

example :
    (summarize [⟨cs "1", [], [], [], [], [], [], [], cs "通过", [], []⟩,
                ⟨cs "2", [], [], [], [], [], [], [], cs "失败", [], []⟩]).passRate
      = 50 := by decide

theorem brTail_length {rest t : List Char} (h : brTail rest = some t) :
    t.length < rest.length + 1 := by
  unfold brTail at h
  have hd : (rest.dropWhile isWsChar).length ≤ rest.length :=
    (List.dropWhile_sublist isWsChar).length_le
  split at h
  · rename_i tail heq
    have : tail.length + 2 = (rest.dropWhile isWsChar).length := by
      rw [heq]; simp
    cases h
    omega
  · rename_i tail heq
    have : tail.length + 1 = (rest.dropWhile isWsChar).length := by
      rw [heq]; simp
    cases h
    omega
  · cases h

theorem matchBr_length {l t : List Char} (h : matchBr l = some t) :
    t.length < l.length := by
  unfold matchBr at h
  split at h
  · rename_i a b r rest
    split at h
    · have := brTail_length h
      simp only [List.length_cons]
      omega
    · cases h
  · cases h

/-- Unfolding equation for `replaceBr` on a non-empty list. -/
theorem replaceBr_cons (c : Char) (rest : List Char) :
    replaceBr (c :: rest) = match matchBr (c :: rest) with
      | some t => '\n' :: replaceBr t
      | none => c :: replaceBr rest := by
  rw [replaceBr]
  split <;> rename_i heq <;> simp [heq]

theorem bumpStatus_notRun (sc : StatusCount) (st : List Char) :
    (bumpStatus sc st).notRun = sc.notRun + (if st = cs "未执行" then 1 else 0) := by
  unfold bumpStatus
  split_ifs with h1 h2 h3 h4 h5 <;> simp_all +decide

theorem bumpStatus_passed (sc : StatusCount) (st : List Char) :
    (bumpStatus sc st).passed = sc.passed + (if st = cs "通过" then 1 else 0) := by
  unfold bumpStatus
  split_ifs with h1 h2 h3 h4 h5 <;> simp_all +decide

theorem foldl_bumpStatus_notRun (cases : List TestCase) (sc : StatusCount) :
    (cases.foldl (fun a c => bumpStatus a c.status) sc).notRun
      = sc.notRun + (cases.filter (fun c => c.status = cs "未执行")).length := by
  induction cases generalizing sc with
  | nil => simp
  | cons c rest ih =>
    rw [List.foldl_cons, ih, bumpStatus_notRun]
    by_cases h : c.status = cs "未执行" <;> simp [h, List.filter_cons] <;> omega

theorem foldl_bumpStatus_passed (cases : List TestCase) (sc : StatusCount) :
    (cases.foldl (fun a c => bumpStatus a c.status) sc).passed
      = sc.passed + (cases.filter (fun c => c.status = cs "通过")).length := by
  induction cases generalizing sc with
  | nil => simp
  | cons c rest ih =>
    rw [List.foldl_cons, ih, bumpStatus_passed]
    by_cases h : c.status = cs "通过" <;> simp [h, List.filter_cons] <;> omega

theorem roundRate_le_100 (p t : Nat) (hpt : p ≤ t) (ht : 0 < t) :
    roundRate p t ≤ 100 := by
  unfold roundRate
  have h1 : 200 * p + t ≤ 201 * t := by omega
  calc (200 * p + t) / (2 * t) ≤ (201 * t) / (2 * t) := Nat.div_le_div_right h1
    _ = 100 := by
        have h2 : 201 * t = t + 2 * t * 100 := by ring
        rw [h2, Nat.add_mul_div_left _ _ (by omega : 0 < 2 * t),
            Nat.div_eq_of_lt (by omega), Nat.zero_add]

/-- Claim C3: for every case collection, `executed` equals the total minus
the number of not-run cases, the pass rate lies between 0 and 100 (0 and
100 inclusive; the lower bound is inherent in the natural-number value) and
is 0 when the total is 0; and the collection with statuses
passed, failed, blocked, not-run, not-run summarizes to total 5,
executed 3, pass rate 20. -/
theorem summarize_aggregator_equations (cases : List TestCase) :
    ((summarize cases).executed
        = cases.length - (cases.filter (fun c => c.status = cs "未执行")).length
      ∧ (summarize cases).passRate ≤ 100
      ∧ ((summarize cases).total = 0 → (summarize cases).passRate = 0))
    ∧ ((summarize [mkCase (cs "1") (cs "通过"), mkCase (cs "2") (cs "失败"),
          mkCase (cs "3") (cs "阻塞"), mkCase (cs "4") (cs "未执行"),
          mkCase (cs "5") (cs "未执行")]).total = 5
       ∧ (summarize [mkCase (cs "1") (cs "通过"), mkCase (cs "2") (cs "失败"),
            mkCase (cs "3") (cs "阻塞"), mkCase (cs "4") (cs "未执行"),
            mkCase (cs "5") (cs "未执行")]).executed = 3
       ∧ (summarize [mkCase (cs "1") (cs "通过"), mkCase (cs "2") (cs "失败"),
            mkCase (cs "3") (cs "阻塞"), mkCase (cs "4") (cs "未执行"),
            mkCase (cs "5") (cs "未执行")]).passRate = 20) := by
  refine ⟨⟨?_, ?_, ?_⟩, by decide, by decide, by decide⟩
  · show cases.length - (cases.foldl (fun a c => bumpStatus a c.status) ⟨0, 0, 0, 0, 0⟩).notRun = _
    rw [foldl_bumpStatus_notRun]
    simp
  · show (if cases.length = 0 then 0
      else roundRate (cases.foldl (fun a c => bumpStatus a c.status) ⟨0, 0, 0, 0, 0⟩).passed
        cases.length) ≤ 100
    split
    · omega
    · rename_i h
      refine roundRate_le_100 _ _ ?_ (by omega)
      rw [foldl_bumpStatus_passed]
      simpa using List.length_filter_le _ cases
  · intro h
    replace h : cases.length = 0 := h
    show (if cases.length = 0 then 0 else _) = 0
    simp [h]

/-- Witness for C3 at the empty collection: a total of 0 forces a pass rate
of 0. -/
theorem summarize_aggregator_equations_witness :
    (summarize ([] : List TestCase)).passRate = 0 :=
  (summarize_aggregator_equations []).1.2.2 (by decide)

/-- Claim C9: a stored blob that fails to parse leaves the load with the
empty collection and an absent filename instead of an error, and a parsed
blob with all fields absent loads as the defaults: empty collection, empty
filename, null timestamp. -/
theorem restore_permissive :
    ((restoreFromLocal { initState with storage := StorageCell.corrupt }).cases = []
      ∧ (restoreFromLocal { initState with storage := StorageCell.corrupt }).sourceFile = [])
    ∧ ∀ r : RawSnapshot, r.cases = none → r.sourceFile = none → r.lastSavedAt = none →
        (restoreFromLocal { initState with storage := StorageCell.blob r }).cases = []
        ∧ (restoreFromLocal { initState with storage := StorageCell.blob r }).sourceFile = []
        ∧ (restoreFromLocal { initState with storage := StorageCell.blob r }).lastSavedAt = none := by
  refine ⟨⟨rfl, rfl⟩, ?_⟩
  intro r h1 h2 h3
  simp [restoreFromLocal, h1, h2, h3, orNullStr]

theorem replaceBr_nil : replaceBr [] = [] := by
  rw [replaceBr]

theorem matchBr_ne_lt {c : Char} (h : c ≠ '<') (l : List Char) :
    matchBr (c :: l) = none := by
  cases l with
  | nil => rfl
  | cons b tail =>
    cases tail with
    | nil => rfl
    | cons r rest =>
      show (if c = '<' ∧ (b = 'b' ∨ b = 'B') ∧ (r = 'r' ∨ r = 'R')
        then brTail rest else none) = none
      exact if_neg (fun hcond => h hcond.1)

theorem replaceBr_no_lt_append (p rest : List Char) (hp : '<' ∉ p) :
    replaceBr (p ++ rest) = p ++ replaceBr rest := by
  induction p with
  | nil => rfl
  | cons c p ih =>
    have hc : c ≠ '<' := fun hcc => hp (hcc ▸ List.mem_cons_self c p)
    have hp2 : '<' ∉ p := fun hm => hp (List.mem_cons_of_mem c hm)
    rw [List.cons_append, replaceBr_cons, matchBr_ne_lt hc]
    show c :: replaceBr (p ++ rest) = (c :: p) ++ replaceBr rest
    rw [ih hp2, List.cons_append]

theorem replaceBr_no_lt (p : List Char) (hp : '<' ∉ p) : replaceBr p = p := by
  have h := replaceBr_no_lt_append p [] hp
  rw [List.append_nil, replaceBr_nil, List.append_nil] at h
  exact h

theorem replaceBr_marker (q : List Char) :
    replaceBr (cs "<br>" ++ q) = '\n' :: replaceBr q := by
  show replaceBr ('<' :: 'b' :: 'r' :: '>' :: q) = '\n' :: replaceBr q
  have hb : brTail ('>' :: q) = some q := by
    unfold brTail
    rw [List.dropWhile_cons, if_neg (by decide)]
    rfl
  have hm : matchBr ('<' :: 'b' :: 'r' :: '>' :: q) = some q := by
    show (if '<' = '<' ∧ ('b' = 'b' ∨ 'b' = 'B') ∧ ('r' = 'r' ∨ 'r' = 'R')
      then brTail ('>' :: q) else none) = some q
    rw [if_pos (by simp), hb]
  rw [replaceBr_cons, hm]

theorem replaceBr_newline (q : List Char) :
    replaceBr ('\n' :: q) = '\n' :: replaceBr q := by
  rw [replaceBr_cons, matchBr_ne_lt (by decide)]

theorem splitNlAux_no_nl (l : List Char) (hl : '\n' ∉ l) (cur : List Char) (b : Bool) :
    splitNlAux l cur b = [cur.reverse ++ l] := by
  induction l generalizing cur b with
  | nil => simp [splitNlAux]
  | cons c rest ih =>
    have hc : c ≠ '\n' := fun hcc => hl (hcc ▸ List.mem_cons_self c rest)
    have hr : '\n' ∉ rest := fun hm => hl (List.mem_cons_of_mem c hm)
    show splitNlAux (c :: rest) cur b = _
    rw [show splitNlAux (c :: rest) cur b
        = if c = '\n' then (if b then splitNlAux rest cur true
            else cur.reverse :: splitNlAux rest [] true)
          else splitNlAux rest (c :: cur) false from rfl,
      if_neg hc, ih hr]
    simp

theorem splitNlAux_mid (p q : List Char) (hp : '\n' ∉ p) (hq : '\n' ∉ q)
    (cur : List Char) :
    splitNlAux (p ++ '\n' :: q) cur false = [cur.reverse ++ p, q] := by
  induction p generalizing cur with
  | nil =>
    show splitNlAux ('\n' :: q) cur false = _
    rw [show splitNlAux ('\n' :: q) cur false
        = if '\n' = '\n' then (if false then splitNlAux q cur true
            else cur.reverse :: splitNlAux q [] true)
          else splitNlAux q ('\n' :: cur) false from rfl,
      if_pos rfl]
    simp only [Bool.false_eq_true, if_false]
    rw [splitNlAux_no_nl q hq [] true]
    simp
  | cons c p ih =>
    have hc : c ≠ '\n' := fun hcc => hp (hcc ▸ List.mem_cons_self c p)
    have hp2 : '\n' ∉ p := fun hm => hp (List.mem_cons_of_mem c hm)
    show splitNlAux (c :: (p ++ '\n' :: q)) cur false = _
    rw [show splitNlAux (c :: (p ++ '\n' :: q)) cur false
        = if c = '\n' then (if false then splitNlAux (p ++ '\n' :: q) cur true
            else cur.reverse :: splitNlAux (p ++ '\n' :: q) [] true)
          else splitNlAux (p ++ '\n' :: q) (c :: cur) false from rfl,
      if_neg hc, ih hp2]
    simp

/-- Claim C5: normalized step sequences never contain the empty string, and
for a cell made of two plain phrases (no markup characters, no embedded
newline, not all-whitespace) separated by one `<br>` marker, normalization
gives exactly the two trimmed phrases — identically to the same cell
authored with an embedded newline. -/
theorem normalizeSteps_spec :
    (∀ raw : List Char, [] ∉ normalizeSteps raw)
    ∧ (∀ p q : List Char, '<' ∉ p → '<' ∉ q → '\n' ∉ p → '\n' ∉ q →
        trimChars p ≠ [] → trimChars q ≠ [] →
        normalizeSteps (p ++ cs "<br>" ++ q) = [trimChars p, trimChars q]
        ∧ normalizeSteps (p ++ cs "<br>" ++ q) = normalizeSteps (p ++ '\n' :: q)) := by
  constructor
  · intro raw h
    simp only [normalizeSteps, List.mem_filter] at h
    exact absurd h.2 (by simp)
  · intro p q hip hiq hnp hnq htp htq
    have e1 : replaceBr (p ++ cs "<br>" ++ q) = p ++ '\n' :: q := by
      rw [List.append_assoc, replaceBr_no_lt_append p _ hip, replaceBr_marker,
        replaceBr_no_lt q hiq]
    have e2 : replaceBr (p ++ '\n' :: q) = p ++ '\n' :: q := by
      rw [replaceBr_no_lt_append p _ hip, replaceBr_newline, replaceBr_no_lt q hiq]
    have e3 : splitNl (p ++ '\n' :: q) = [p, q] := by
      unfold splitNl
      rw [splitNlAux_mid p q hnp hnq]
      simp
    constructor
    · rw [normalizeSteps, e1, e3]
      simp [List.filter_cons, htp, htq]
    · rw [normalizeSteps, e1, normalizeSteps, e2]

/-- Witness for C5: the two-phrase scenario with a literal marker, and the
equality with newline authoring. -/
theorem normalizeSteps_spec_witness :
    normalizeSteps (cs "step one<br>step two") = [cs "step one", cs "step two"]
    ∧ normalizeSteps (cs "step one<br>step two")
        = normalizeSteps (cs "step one\nstep two") := by
  have h := normalizeSteps_spec.2 (cs "step one") (cs "step two")
    (by decide) (by decide) (by decide) (by decide) (by decide) (by decide)
  have heq : cs "step one<br>step two" = cs "step one" ++ cs "<br>" ++ cs "step two" := by
    decide
  have heq2 : cs "step one\nstep two" = cs "step one" ++ '\n' :: cs "step two" := by
    decide
  constructor
  · rw [heq, h.1]
    decide
  · rw [heq, heq2]
    exact h.2

theorem csvAux_nil (cur : List Char) (b : Bool) :
    splitCsvLineAux [] cur b = [cur.reverse] := rfl

theorem csvAux_openQ (rest cur : List Char) :
    splitCsvLineAux ('"' :: rest) cur false = splitCsvLineAux rest cur true := by
  rw [splitCsvLineAux.eq_def]
  simp

theorem csvAux_comma (rest cur : List Char) :
    splitCsvLineAux (',' :: rest) cur false
      = cur.reverse :: splitCsvLineAux rest [] false := by
  rw [splitCsvLineAux.eq_def]
  simp

theorem csvAux_otherF (c : Char) (rest cur : List Char) (h1 : ¬ c = '"')
    (h2 : ¬ c = ',') :
    splitCsvLineAux (c :: rest) cur false
      = splitCsvLineAux rest (c :: cur) false := by
  rw [splitCsvLineAux.eq_def]
  simp [h1, h2]

theorem csvAux_pair (rest2 cur : List Char) :
    splitCsvLineAux ('"' :: '"' :: rest2) cur true
      = splitCsvLineAux rest2 ('"' :: cur) true := by
  rw [splitCsvLineAux.eq_def]
  simp

theorem csvAux_closeComma (rest2 cur : List Char) :
    splitCsvLineAux ('"' :: ',' :: rest2) cur true
      = cur.reverse :: splitCsvLineAux rest2 [] false := by
  rw [splitCsvLineAux.eq_def]
  simp

theorem csvAux_closeOther (d : Char) (rest2 cur : List Char) (h1 : ¬ d = '"')
    (h2 : ¬ d = ',') :
    splitCsvLineAux ('"' :: d :: rest2) cur true
      = splitCsvLineAux rest2 (d :: cur) false := by
  rw [splitCsvLineAux.eq_def]
  simp [h1, h2]

theorem csvAux_closeEnd (cur : List Char) :
    splitCsvLineAux ['"'] cur true = [cur.reverse] := by
  rw [splitCsvLineAux.eq_def]
  simp

theorem csvAux_otherT (c : Char) (rest cur : List Char) (h : ¬ c = '"') :
    splitCsvLineAux (c :: rest) cur true
      = splitCsvLineAux rest (c :: cur) true := by
  rw [splitCsvLineAux.eq_def]
  simp [h]

theorem splitCsvLineAux_ne_nil (l cur : List Char) (b : Bool) :
    splitCsvLineAux l cur b ≠ [] := by
  induction l, cur, b using splitCsvLineAux.induct with
  | case1 cur b => simp [csvAux_nil]
  | case2 rest cur ih => rw [csvAux_openQ]; exact ih
  | case3 rest cur h ih => rw [csvAux_comma]; simp
  | case4 c rest cur h1 h2 ih => rw [csvAux_otherF c rest cur h1 h2]; exact ih
  | case5 cur rest2 ih => rw [csvAux_pair]; exact ih
  | case6 cur rest2 h ih => rw [csvAux_closeComma]; simp
  | case7 cur d rest2 h1 h2 ih => rw [csvAux_closeOther d rest2 cur h1 h2]; exact ih
  | case8 cur => simp [csvAux_closeEnd]
  | case9 c rest cur h ih => rw [csvAux_otherT c rest cur h]; exact ih

theorem splitCsvLineAux_join (l cur : List Char) (b : Bool) :
    ∃ s, (splitCsvLineAux l cur b).join = cur.reverse ++ s ∧ List.Sublist s l := by
  induction l, cur, b using splitCsvLineAux.induct with
  | case1 cur b => exact ⟨[], by simp [csvAux_nil], List.nil_sublist []⟩
  | case2 rest cur ih =>
    obtain ⟨s, hj, hs⟩ := ih
    exact ⟨s, by rw [csvAux_openQ, hj], hs.cons _⟩
  | case3 rest cur h ih =>
    obtain ⟨s, hj, hs⟩ := ih
    refine ⟨s, ?_, hs.cons _⟩
    rw [csvAux_comma]
    simp [hj]
  | case4 c rest cur h1 h2 ih =>
    obtain ⟨s, hj, hs⟩ := ih
    refine ⟨c :: s, ?_, hs.cons₂ _⟩
    rw [csvAux_otherF c rest cur h1 h2, hj]
    simp
  | case5 cur rest2 ih =>
    obtain ⟨s, hj, hs⟩ := ih
    refine ⟨'"' :: s, ?_, (hs.cons₂ _).cons _⟩
    rw [csvAux_pair, hj]
    simp
  | case6 cur rest2 h ih =>
    obtain ⟨s, hj, hs⟩ := ih
    refine ⟨s, ?_, (hs.cons _).cons _⟩
    rw [csvAux_closeComma]
    simp [hj]
  | case7 cur d rest2 h1 h2 ih =>
    obtain ⟨s, hj, hs⟩ := ih
    refine ⟨d :: s, ?_, (hs.cons₂ _).cons _⟩
    rw [csvAux_closeOther d rest2 cur h1 h2, hj]
    simp
  | case8 cur => exact ⟨[], by simp [csvAux_closeEnd], List.nil_sublist _⟩
  | case9 c rest cur h ih =>
    obtain ⟨s, hj, hs⟩ := ih
    refine ⟨c :: s, ?_, hs.cons₂ _⟩
    rw [csvAux_otherT c rest cur h, hj]
    simp

/-- Claim C7: parsing is total and conservative — every line splits into at
least one cell, the concatenated cell contents are a subsequence of the line
(no content is invented, each cell holds exactly characters found between
the detected delimiters), every parsed row is non-empty, and malformed
quoting such as an unterminated quote degrades gracefully instead of
failing. -/
theorem parseCsv_total_conservative :
    (∀ line : List Char,
        splitCsvLine line ≠ []
        ∧ List.Sublist (splitCsvLine line).join line)
    ∧ (∀ text : List Char, ∀ row ∈ parseCsv text, row ≠ [])
    ∧ splitCsvLine (cs "\"abc") = [cs "abc"]
    ∧ parseCsv (cs "\"a,b") = [[cs "a,b"]] := by
  refine ⟨?_, ?_, by decide, by decide⟩
  · intro line
    refine ⟨splitCsvLineAux_ne_nil line [] false, ?_⟩
    obtain ⟨s, hj, hs⟩ := splitCsvLineAux_join line [] false
    simpa [splitCsvLine, hj] using hs
  · intro text row hrow
    simp only [parseCsv, List.mem_map] at hrow
    obtain ⟨l, -, rfl⟩ := hrow
    exact splitCsvLineAux_ne_nil l [] false

/-- Witness for C7 at a malformed one-line input. -/
theorem parseCsv_total_conservative_witness :
    splitCsvLine (cs "\"abc") ≠ []
    ∧ List.Sublist (splitCsvLine (cs "\"abc")).join (cs "\"abc")
    ∧ ∀ row ∈ parseCsv (cs "\"a,b"), row ≠ [] :=
  ⟨(parseCsv_total_conservative.1 (cs "\"abc")).1,
   (parseCsv_total_conservative.1 (cs "\"abc")).2,
   fun row hrow => parseCsv_total_conservative.2.1 (cs "\"a,b") row hrow⟩

theorem splitLinesAux_no_nl (l : List Char) (hl : '\n' ∉ l) (cur : List Char) :
    splitLinesAux l cur = [cur.reverse ++ l] := by
  induction l generalizing cur with
  | nil => simp [splitLinesAux]
  | cons c rest ih =>
    have hc : c ≠ '\n' := fun hcc => hl (hcc ▸ List.mem_cons_self c rest)
    have hr : '\n' ∉ rest := fun hm => hl (List.mem_cons_of_mem c hm)
    rw [show splitLinesAux (c :: rest) cur
        = if c = '\n' then stripCR cur.reverse :: splitLinesAux rest []
          else splitLinesAux rest (c :: cur) from rfl,
      if_neg hc, ih hr]
    simp

theorem splitLines_no_nl (l : List Char) (hl : '\n' ∉ l) : splitLines l = [l] := by
  unfold splitLines
  rw [splitLinesAux_no_nl l hl []]
  simp

theorem not_nl_doubleQ (s : List Char) (h : '\n' ∉ s) : '\n' ∉ doubleQ s := by
  induction s with
  | nil => simp [doubleQ]
  | cons c rest ih =>
    have hc : c ≠ '\n' := fun hcc => h (hcc ▸ List.mem_cons_self c rest)
    have hr : '\n' ∉ rest := fun hm => h (List.mem_cons_of_mem c hm)
    unfold doubleQ
    split
    · rename_i hq
      simp [ih hr]
    · simp [ih hr, Ne.symm hc]

theorem trim_quoted (m : List Char) :
    trimChars ('"' :: (m ++ ['"'])) = '"' :: (m ++ ['"']) := by
  unfold trimChars
  rw [List.dropWhile_cons, if_neg (by decide)]
  rw [show ('"' :: (m ++ ['"'])).reverse = '"' :: (m.reverse ++ ['"']) from by simp]
  rw [List.dropWhile_cons, if_neg (by decide)]
  simp

theorem csvAux_doubled (s : List Char) (cur : List Char) :
    splitCsvLineAux (doubleQ s ++ ['"']) cur true = [cur.reverse ++ s] := by
  induction s generalizing cur with
  | nil =>
    show splitCsvLineAux ['"'] cur true = _
    rw [csvAux_closeEnd]
    simp
  | cons c rest ih =>
    by_cases hc : c = '"'
    · subst hc
      rw [show doubleQ ('"' :: rest) = '"' :: '"' :: doubleQ rest from by
        simp [doubleQ]]
      rw [List.cons_append, List.cons_append, csvAux_pair, ih]
      simp
    · rw [show doubleQ (c :: rest) = c :: doubleQ rest from by
        simp [doubleQ, hc]]
      rw [List.cons_append, csvAux_otherT c _ cur hc, ih]
      simp

/-- Amended claim C1: a field containing a comma or a double quote is quoted
in the output, and — provided it contains no newline — parsing the escaped
text yields back exactly the original field.  (A field containing a newline
is quoted but does not round-trip; see the counterexample.) -/
theorem csv_escape_roundtrip (s : List Char) (hcq : '"' ∈ s ∨ ',' ∈ s)
    (hnl : '\n' ∉ s) :
    (∃ m, escapeCsvField s = '"' :: (m ++ ['"']))
    ∧ parseCsv (escapeCsvField s) = [[s]] := by
  have hq : s.any needsQuote = true := by
    rcases hcq with h | h
    · exact List.any_eq_true.mpr ⟨'"', h, by decide⟩
    · exact List.any_eq_true.mpr ⟨',', h, by decide⟩
  have hesc : escapeCsvField s = '"' :: (doubleQ s ++ ['"']) := by
    unfold escapeCsvField
    rw [if_pos hq]
  refine ⟨⟨doubleQ s, hesc⟩, ?_⟩
  rw [hesc]
  have hnlq : '\n' ∉ '"' :: (doubleQ s ++ ['"']) := by
    intro hm
    rcases List.mem_cons.mp hm with h | h
    · cases h
    · rcases List.mem_append.mp h with h | h
      · exact not_nl_doubleQ s hnl h
      · simp at h
  unfold parseCsv
  rw [splitLines_no_nl _ hnlq]
  rw [List.map_cons, List.map_nil, trim_quoted]
  rw [show List.filter (fun l => !l.isEmpty) [('"' :: (doubleQ s ++ ['"']))]
      = [('"' :: (doubleQ s ++ ['"']))] from by simp]
  rw [List.map_cons, List.map_nil]
  show [splitCsvLineAux ('"' :: (doubleQ s ++ ['"'])) [] false] = [[s]]
  rw [csvAux_openQ, csvAux_doubled]
  simp

/-- Witness for the amended C1 at a field containing a comma. -/
theorem csv_escape_roundtrip_witness :
    parseCsv (escapeCsvField (cs "a,b")) = [[cs "a,b"]] :=
  (csv_escape_roundtrip (cs "a,b") (Or.inr (by decide)) (by decide)).2

/-- Counterexample to claim C1 as stated: the field `a\nb` contains a
newline, is quoted on output, but re-parsing the escaped text yields two
one-cell rows, not the original field, because `parseCsv` splits the text
into physical lines before interpreting quotes. -/
theorem csv_escape_newline_cex :
    '\n' ∈ cs "a\nb"
    ∧ parseCsv (escapeCsvField (cs "a\nb")) ≠ [[cs "a\nb"]]
    ∧ parseCsv (escapeCsvField (cs "a\nb")) = [[cs "a"], [cs "b"]] := by
  refine ⟨by decide, by decide, by decide⟩

theorem foldl_findSaved_mem (id : List Char) (cases : List TestCase)
    (acc : Option TestCase) (c : TestCase)
    (h : cases.foldl (fun acc x => if x.id = id then some x else acc) acc = some c) :
    c ∈ cases ∨ acc = some c := by
  induction cases generalizing acc with
  | nil => exact Or.inr h
  | cons x rest ih =>
    rcases ih _ h with hm | hacc
    · exact Or.inl (List.mem_cons_of_mem x hm)
    · by_cases hx : x.id = id
      · have hacc2 : (if x.id = id then some x else acc) = some c := hacc
        rw [if_pos hx] at hacc2
        have hxc : x = c := by injection hacc2
        subst hxc
        exact Or.inl (List.mem_cons_self _ _)
      · have hacc2 : (if x.id = id then some x else acc) = some c := hacc
        rw [if_neg hx] at hacc2
        exact Or.inr hacc2

theorem findSaved_mem {cases : List TestCase} {id : List Char} {c : TestCase}
    (h : findSaved cases id = some c) : c ∈ cases := by
  rcases foldl_findSaved_mem id cases none c h with hm | hacc
  · exact hm
  · cases hacc

theorem statusOptions_ne_nil (s : List Char) (h : s ∈ statusOptionsL) : s ≠ [] := by
  fin_cases h <;> decide

theorem orDefault_nil_right (a : List Char) : orDefault a [] = a := by
  unfold orDefault
  split <;> simp_all

/-- Claim C2: reconciliation carries execution state forward by identifier.
One case per non-header row; a row whose id has a prior case (the last one
with that id, matching the lookup map) inherits its status, actual and
updatedAt, and a row with no prior case defaults to not-run, empty actual
and absent updatedAt.  Prior statuses are assumed to be enum values, as the
data model guarantees. -/
theorem applyRows_merge (prior : List TestCase) (rows : List (List (List Char)))
    (hne : rows ≠ [])
    (hvalid : ∀ c ∈ prior, c.status ∈ statusOptionsL) :
    (applyRows prior rows).length = (rows.drop (headerStart rows)).length
    ∧ (∀ i row saved, (rows.drop (headerStart rows)).get? i = some row →
        findSaved prior (getCell row 0) = some saved →
        ∃ c, (applyRows prior rows).get? i = some c
          ∧ c.status = saved.status ∧ c.actual = saved.actual
          ∧ c.updatedAt = saved.updatedAt)
    ∧ (∀ i row, (rows.drop (headerStart rows)).get? i = some row →
        findSaved prior (getCell row 0) = none →
        ∃ c, (applyRows prior rows).get? i = some c
          ∧ c.status = cs "未执行" ∧ c.actual = [] ∧ c.updatedAt = []) := by
  have happ : applyRows prior rows = (rows.drop (headerStart rows)).map (mergeRow prior) := by
    unfold applyRows
    rw [if_neg hne]
  refine ⟨by rw [happ]; simp, ?_, ?_⟩
  · intro i row saved hrow hsaved
    have hsne : saved.status ≠ [] :=
      statusOptions_ne_nil _ (hvalid saved (findSaved_mem hsaved))
    refine ⟨mergeRow prior row, by rw [happ, List.get?_map, hrow]; rfl, ?_, ?_, ?_⟩
    · simp [mergeRow, hsaved, orDefault, hsne]
    · simp [mergeRow, hsaved, orDefault_nil_right]
    · simp [mergeRow, hsaved, orDefault_nil_right]
  · intro i row hrow hnone
    refine ⟨mergeRow prior row, by rw [happ, List.get?_map, hrow]; rfl, ?_, ?_, ?_⟩
    · simp [mergeRow, hnone, orDefault]
    · simp [mergeRow, hnone, orDefault_nil_right]
    · simp [mergeRow, hnone, orDefault_nil_right]

/-- Witness for C2: importing three rows A, B, C over a prior collection
where only B matches (with status passed) gives B passed and A, C
not-run. -/
theorem applyRows_merge_witness :
    (∃ c, (applyRows [mkCase (cs "B") (cs "通过")]
        [[cs "A"], [cs "B"], [cs "C"]]).get? 1 = some c ∧ c.status = cs "通过")
    ∧ (∃ c, (applyRows [mkCase (cs "B") (cs "通过")]
        [[cs "A"], [cs "B"], [cs "C"]]).get? 0 = some c ∧ c.status = cs "未执行")
    ∧ (∃ c, (applyRows [mkCase (cs "B") (cs "通过")]
        [[cs "A"], [cs "B"], [cs "C"]]).get? 2 = some c ∧ c.status = cs "未执行") := by
  have h := applyRows_merge [mkCase (cs "B") (cs "通过")] [[cs "A"], [cs "B"], [cs "C"]]
    (by decide) (by decide)
  refine ⟨?_, ?_, ?_⟩
  · obtain ⟨c, hc, hs, -, -⟩ := h.2.1 1 [cs "B"] (mkCase (cs "B") (cs "通过"))
      (by decide) (by decide)
    exact ⟨c, hc, hs⟩
  · obtain ⟨c, hc, hs, -, -⟩ := h.2.2 0 [cs "A"] (by decide) (by decide)
    exact ⟨c, hc, hs⟩
  · obtain ⟨c, hc, hs, -, -⟩ := h.2.2 2 [cs "C"] (by decide) (by decide)
    exact ⟨c, hc, hs⟩

theorem foldl_findSaved_no_match (id : List Char) (rest : List TestCase)
    (acc : Option TestCase) (hno : ∀ y ∈ rest, ¬ y.id = id) :
    rest.foldl (fun acc x => if x.id = id then some x else acc) acc = acc := by
  induction rest generalizing acc with
  | nil => rfl
  | cons x r ih =>
    have hx := hno x (List.mem_cons_self x r)
    rw [List.foldl_cons, if_neg hx]
    exact ih acc (fun y hy => hno y (List.mem_cons_of_mem x hy))

theorem findSaved_self {cases : List TestCase}
    (hnd : (cases.map TestCase.id).Nodup) {c : TestCase} (hc : c ∈ cases) :
    findSaved cases c.id = some c := by
  induction cases with
  | nil => cases hc
  | cons x rest ih =>
    rw [List.map_cons, List.nodup_cons] at hnd
    obtain ⟨hx, hnd2⟩ := hnd
    rcases List.mem_cons.mp hc with rfl | hmem
    · show List.foldl _ _ (c :: rest) = some c
      rw [List.foldl_cons, if_pos rfl]
      exact foldl_findSaved_no_match c.id rest (some c)
        (fun y hy hyid => hx (hyid ▸ List.mem_map_of_mem TestCase.id hy))
    · show List.foldl _ _ (x :: rest) = some c
      have hxc : ¬ x.id = c.id := fun h => hx (h ▸ List.mem_map_of_mem TestCase.id hmem)
      rw [List.foldl_cons, if_neg hxc]
      exact ih hnd2 hmem

/-- Amended claim C8: merge idempotence holds for collections with pairwise
distinct identifiers.  Re-importing rows that carry the same identifiers in
the same order (with no header-like first row) leaves every case's status,
actual and updatedAt unchanged, statuses being enum values as the data model
guarantees.  With duplicate identifiers it fails; see the counterexample. -/
theorem applyRows_self_idempotent (cases : List TestCase)
    (rows : List (List (List Char)))
    (hnd : (cases.map TestCase.id).Nodup)
    (hvalid : ∀ c ∈ cases, c.status ∈ statusOptionsL)
    (hlen : rows.length = cases.length)
    (hid : ∀ i c, cases.get? i = some c →
        ∃ row, rows.get? i = some row ∧ getCell row 0 = c.id)
    (hhd : headerStart rows = 0) :
    (applyRows cases rows).map TestCase.status = cases.map TestCase.status
    ∧ (applyRows cases rows).map TestCase.actual = cases.map TestCase.actual
    ∧ (applyRows cases rows).map TestCase.updatedAt = cases.map TestCase.updatedAt := by
  by_cases hr : rows = []
  · subst hr
    simp [applyRows]
  · have happ : applyRows cases rows = rows.map (mergeRow cases) := by
      unfold applyRows
      rw [if_neg hr, hhd, List.drop_zero]
    have key : ∀ i, i < cases.length →
        ∃ c row, cases.get? i = some c ∧ rows.get? i = some row
          ∧ (mergeRow cases row).status = c.status
          ∧ (mergeRow cases row).actual = c.actual
          ∧ (mergeRow cases row).updatedAt = c.updatedAt := by
      intro i hi
      obtain ⟨c, hc⟩ : ∃ c, cases.get? i = some c := by
        rw [List.get?_eq_get hi]
        exact ⟨_, rfl⟩
      obtain ⟨row, hrow, hgid⟩ := hid i c hc
      have hmem : c ∈ cases := List.get?_mem hc
      have hfs : findSaved cases (getCell row 0) = some c := by
        rw [hgid]
        exact findSaved_self hnd hmem
      have hsne : c.status ≠ [] := statusOptions_ne_nil _ (hvalid c hmem)
      exact ⟨c, row, hc, hrow,
        by simp [mergeRow, hfs, orDefault, hsne],
        by simp [mergeRow, hfs, orDefault_nil_right],
        by simp [mergeRow, hfs, orDefault_nil_right]⟩
    have hnone : ∀ n, ¬ n < cases.length →
        rows.get? n = none ∧ cases.get? n = none := by
      intro n hn
      constructor
      · exact List.get?_eq_none.mpr (by omega)
      · exact List.get?_eq_none.mpr (by omega)
    refine ⟨?_, ?_, ?_⟩ <;> rw [happ] <;> refine List.ext_get?_iff.mpr (fun n => ?_)
    · by_cases hn : n < cases.length
      · obtain ⟨c, row, hc, hrow, h1, -, -⟩ := key n hn
        simp [List.get?_map, ← List.get?_eq_getElem?, hrow, hc, h1]
      · obtain ⟨hr1, hc1⟩ := hnone n hn
        simp [List.get?_map, ← List.get?_eq_getElem?, hr1, hc1]
    · by_cases hn : n < cases.length
      · obtain ⟨c, row, hc, hrow, -, h2, -⟩ := key n hn
        simp [List.get?_map, ← List.get?_eq_getElem?, hrow, hc, h2]
      · obtain ⟨hr1, hc1⟩ := hnone n hn
        simp [List.get?_map, ← List.get?_eq_getElem?, hr1, hc1]
    · by_cases hn : n < cases.length
      · obtain ⟨c, row, hc, hrow, -, -, h3⟩ := key n hn
        simp [List.get?_map, ← List.get?_eq_getElem?, hrow, hc, h3]
      · obtain ⟨hr1, hc1⟩ := hnone n hn
        simp [List.get?_map, ← List.get?_eq_getElem?, hr1, hc1]

/-- Witness for the amended C8: a two-case collection with distinct ids,
re-imported from rows with the same ids in order, keeps its statuses. -/
theorem applyRows_self_idempotent_witness :
    (applyRows [mkCase (cs "A") (cs "通过"), mkCase (cs "B") (cs "失败")]
        [[cs "A"], [cs "B"]]).map TestCase.status
      = [mkCase (cs "A") (cs "通过"), mkCase (cs "B") (cs "失败")].map TestCase.status := by
  have h := applyRows_self_idempotent
    [mkCase (cs "A") (cs "通过"), mkCase (cs "B") (cs "失败")]
    [[cs "A"], [cs "B"]] (by decide) (by decide) (by decide)
    (fun i c hc => by
      match i, hc with
      | 0, hc => exact ⟨[cs "A"], rfl, by cases hc; rfl⟩
      | 1, hc => exact ⟨[cs "B"], rfl, by cases hc; rfl⟩)
    (by decide)
  exact h.1

/-- Counterexample to claim C8 as stated: a collection holding two cases
with the same identifier (the parser never de-duplicates rows, so such
collections are reachable) changes its first case's status from passed to
not-run when the same rows are re-imported, because the saved-state lookup
keeps only the last case per identifier. -/
theorem applyRows_idem_cex :
    ([[cs "A"], [cs "A"]].map (fun r => getCell r 0)
        = [mkCase (cs "A") (cs "通过"), mkCase (cs "A") (cs "未执行")].map TestCase.id)
    ∧ (applyRows [mkCase (cs "A") (cs "通过"), mkCase (cs "A") (cs "未执行")]
          [[cs "A"], [cs "A"]]).map TestCase.status
        ≠ [mkCase (cs "A") (cs "通过"), mkCase (cs "A") (cs "未执行")].map TestCase.status := by
  refine ⟨by decide, by decide⟩

theorem applyRows_status_valid (prior : List TestCase)
    (rows : List (List (List Char)))
    (h : ∀ c ∈ prior, c.status ∈ statusOptionsL) :
    ∀ c ∈ applyRows prior rows, c.status ∈ statusOptionsL := by
  intro c hc
  unfold applyRows at hc
  split at hc
  · exact h c hc
  · rw [List.mem_map] at hc
    obtain ⟨row, -, rfl⟩ := hc
    show orDefault (((findSaved prior (getCell row 0)).map TestCase.status).getD [])
      (cs "未执行") ∈ statusOptionsL
    cases hfs : findSaved prior (getCell row 0) with
    | none => decide
    | some saved =>
      have hs := h saved (findSaved_mem hfs)
      have hne := statusOptions_ne_nil _ hs
      show orDefault saved.status (cs "未执行") ∈ statusOptionsL
      rw [show orDefault saved.status (cs "未执行") = saved.status from by
        unfold orDefault
        rw [if_neg hne]]
      exact hs

theorem step_preserves_statusInv (st : AppState) (op : Op) (hop : validOp op)
    (hinv : statusInv st) : statusInv (step st op) := by
  obtain ⟨hcases, hstore⟩ := hinv
  cases op with
  | importRows rows f now =>
    show statusInv (stateApplyRows st rows f now)
    unfold stateApplyRows
    split
    · exact ⟨hcases, hstore⟩
    · rename_i hrw
      have hnew := applyRows_status_valid st.cases rows hcases
      refine ⟨hnew, ?_⟩
      intro r hr
      have hr2 : StorageCell.blob ⟨some (applyRows st.cases rows), some f, some now⟩
          = StorageCell.blob r := hr
      cases hr2
      intro c hc
      exact hnew c (by simpa using hc)
  | setStatus i s now =>
    show statusInv (stateSetStatus st i s now)
    unfold stateSetStatus
    split
    · exact ⟨hcases, hstore⟩
    · rename_i c0 hget
      have hop2 : s ∈ statusOptionsL := hop
      have hnew : ∀ c ∈ st.cases.set i { c0 with status := s, updatedAt := now },
          c.status ∈ statusOptionsL := by
        intro c hc
        rcases List.mem_or_eq_of_mem_set hc with hm | rfl
        · exact hcases c hm
        · exact hop2
      refine ⟨hnew, ?_⟩
      intro r hr
      have hr2 : StorageCell.blob
          ⟨some (st.cases.set i { c0 with status := s, updatedAt := now }),
           some st.sourceFile, some now⟩ = StorageCell.blob r := hr
      cases hr2
      intro c hc
      exact hnew c (by simpa using hc)
  | restore =>
    show statusInv (restoreFromLocal st)
    unfold restoreFromLocal
    split
    · exact ⟨hcases, hstore⟩
    · exact ⟨hcases, hstore⟩
    · rename_i r hr
      refine ⟨hstore r hr, ?_⟩
      intro r2 hr2
      have hr2s : st.storage = StorageCell.blob r2 := hr2
      rw [hr] at hr2s
      cases hr2s
      exact hstore r hr
  | clear =>
    refine ⟨hcases, ?_⟩
    intro r hr
    have hr2 : StorageCell.empty = StorageCell.blob r := hr
    cases hr2

theorem foldl_step_statusInv (ops : List Op) (st : AppState)
    (hinv : statusInv st) (hops : ∀ op ∈ ops, validOp op) :
    statusInv (ops.foldl step st) := by
  induction ops generalizing st with
  | nil => exact hinv
  | cons op rest ih =>
    rw [List.foldl_cons]
    exact ih (step st op)
      (step_preserves_statusInv st op (hops op (List.mem_cons_self op rest)) hinv)
      (fun o ho => hops o (List.mem_cons_of_mem op ho))

/-- Claim C6: after any sequence of operations (import/merge, status edits
with statuses taken from the UI's five options, save and restore), every
case's status is one of the five enum values. -/
theorem status_enum_invariant (ops : List Op) (hops : ∀ op ∈ ops, validOp op) :
    ∀ c ∈ (run ops).cases, c.status ∈ statusOptionsL := by
  have hinit : statusInv initState := by
    constructor
    · intro c hc
      cases hc
    · intro r hr
      have h2 : StorageCell.empty = StorageCell.blob r := hr
      cases h2
  have h := foldl_step_statusInv ops initState hinit hops
  exact h.1

/-- Witness for C6 on a concrete operation sequence: import one row, mark it
passed, then restore from storage — the surviving case's status is an enum
value. -/
theorem status_enum_invariant_witness :
    ∃ c, (run [Op.importRows [[cs "A"]] (cs "f") (cs "t0"),
        Op.setStatus 0 (cs "通过") (cs "t1"), Op.restore]).cases.get? 0 = some c
      ∧ c.status ∈ statusOptionsL := by
  have h := status_enum_invariant
    [Op.importRows [[cs "A"]] (cs "f") (cs "t0"),
     Op.setStatus 0 (cs "通过") (cs "t1"), Op.restore] (by decide)
  have hlen : (run [Op.importRows [[cs "A"]] (cs "f") (cs "t0"),
      Op.setStatus 0 (cs "通过") (cs "t1"), Op.restore]).cases.length = 1 := by decide
  match hq : (run [Op.importRows [[cs "A"]] (cs "f") (cs "t0"),
      Op.setStatus 0 (cs "通过") (cs "t1"), Op.restore]).cases.get? 0 with
  | some c => exact ⟨c, rfl, h c (List.get?_mem hq)⟩
  | none =>
    rw [List.get?_eq_none] at hq
    omega

/-- Claim C4: the report text is exactly three blocks separated by blank
rows — the fixed-label summary block, the abnormal section (its fixed header
followed by all failed cases then all blocked cases), and the full listing
of the given cases under its fixed header. -/
theorem report_three_blocks (cases : List TestCase) :
    buildReportCsv cases
      = renderCsvRows (summaryRowsOf cases ++ ([] :: abnormalSection cases)
          ++ ([] :: listingSection cases))
    ∧ (abnormalSection cases).head? = some abnormalHeaderRow
    ∧ (listingSection cases).head? = some listingHeaderRow
    ∧ (summaryRowsOf cases).head? = some [cs "摘要", cs "值"]
    ∧ ((cases.filter (fun c => c.status = cs "失败")
          ++ cases.filter (fun c => c.status = cs "阻塞")) ≠ [] →
        (abnormalSection cases).tail
          = (cases.filter (fun c => c.status = cs "失败")).map abnormalRowOf
            ++ (cases.filter (fun c => c.status = cs "阻塞")).map abnormalRowOf)
    ∧ (listingSection cases).tail = cases.map listingRowOf := by
  refine ⟨?_, rfl, rfl, rfl, ?_, rfl⟩
  · unfold buildReportCsv buildReportRows summaryRowsOf abnormalSection
      listingSection abnormalHeaderRow listingHeaderRow
    congr 1
    simp [List.append_assoc]
  · intro hne
    show (if (cases.filter (fun c => c.status = cs "失败")
        ++ cases.filter (fun c => c.status = cs "阻塞")).isEmpty
      then [[cs "无异常", [], [], [], []]]
      else (cases.filter (fun c => c.status = cs "失败")
        ++ cases.filter (fun c => c.status = cs "阻塞")).map abnormalRowOf) = _
    rw [if_neg (by simpa using hne), List.map_append]

/-- Witness for C4 at a one-case collection whose case failed, exercising
the abnormal-section hypothesis. -/
theorem report_three_blocks_witness :
    (abnormalSection [mkCase (cs "1") (cs "失败")]).tail
      = ([mkCase (cs "1") (cs "失败")].filter
          (fun c => c.status = cs "失败")).map abnormalRowOf
        ++ ([mkCase (cs "1") (cs "失败")].filter
          (fun c => c.status = cs "阻塞")).map abnormalRowOf :=
  (report_three_blocks [mkCase (cs "1") (cs "失败")]).2.2.2.2.1 (by decide)

theorem trim_head_not_ws (l : List Char) (c : Char)
    (h : (trimChars l).head? = some c) : isWsChar c = false := by
  unfold trimChars at h
  rw [List.head?_reverse] at h
  obtain ⟨t, ht⟩ := List.dropWhile_suffix (l := (l.dropWhile isWsChar).reverse) isWsChar
  have h2 : (t ++ (l.dropWhile isWsChar).reverse.dropWhile isWsChar).getLast? = some c := by
    rw [List.getLast?_append, h]
    rfl
  rw [ht, List.getLast?_reverse] at h2
  have h3 := List.head?_dropWhile_not isWsChar l
  simp only [h2] at h3
  exact h3

theorem trim_last_not_ws (l : List Char) (c : Char)
    (h : (trimChars l).getLast? = some c) : isWsChar c = false := by
  unfold trimChars at h
  rw [List.getLast?_reverse] at h
  have h3 := List.head?_dropWhile_not isWsChar (l.dropWhile isWsChar).reverse
  simp only [h] at h3
  exact h3

theorem mem_trimChars {c : Char} {l : List Char} (h : c ∈ trimChars l) : c ∈ l := by
  unfold trimChars at h
  rw [List.mem_reverse] at h
  have h2 := (List.dropWhile_sublist isWsChar).mem h
  rw [List.mem_reverse] at h2
  exact (List.dropWhile_sublist isWsChar).mem h2

theorem getLast?_cons_ne {α : Type} (a : α) (l : List α) (h : l ≠ []) :
    (a :: l).getLast? = l.getLast? := by
  cases l with
  | nil => exact absurd rfl h
  | cons b r => exact List.getLast?_cons_cons

theorem csvAux_head_src (m : List Char) : ∀ cur, '"' ∉ m → ∀ c,
    ((splitCsvLineAux m cur false).headD []).head? = some c →
    (cur.reverse ++ m).head? = some c := by
  induction m with
  | nil =>
    intro cur _ c h
    simpa [csvAux_nil] using h
  | cons c0 rest ih =>
    intro cur hq c h
    have hc0 : ¬ c0 = '"' := fun he => hq (he ▸ List.mem_cons_self c0 rest)
    have hqr : '"' ∉ rest := fun hm => hq (List.mem_cons_of_mem c0 hm)
    by_cases hcm : c0 = ','
    · subst hcm
      rw [csvAux_comma] at h
      simp only [List.headD_cons] at h
      rw [List.head?_append, h]
      rfl
    · rw [csvAux_otherF c0 rest cur hc0 hcm] at h
      have h2 := ih (c0 :: cur) hqr c h
      rw [show (c0 :: cur).reverse ++ rest = cur.reverse ++ c0 :: rest from by simp] at h2
      exact h2

theorem csvAux_last_src (m : List Char) : ∀ cur, '"' ∉ m → ∀ c,
    ((splitCsvLineAux m cur false).getLastD []).getLast? = some c →
    (cur.reverse ++ m).getLast? = some c := by
  induction m with
  | nil =>
    intro cur _ c h
    simpa [csvAux_nil] using h
  | cons c0 rest ih =>
    intro cur hq c h
    have hc0 : ¬ c0 = '"' := fun he => hq (he ▸ List.mem_cons_self c0 rest)
    have hqr : '"' ∉ rest := fun hm => hq (List.mem_cons_of_mem c0 hm)
    by_cases hcm : c0 = ','
    · subst hcm
      rw [csvAux_comma, List.getLastD_cons, List.getLastD_eq_getLast?] at h
      have hne := splitCsvLineAux_ne_nil rest [] false
      obtain ⟨z, hz⟩ := Option.isSome_iff_exists.mp (List.getLast?_isSome.mpr hne)
      rw [hz] at h
      simp only [Option.getD_some] at h
      have h2 := ih [] hqr c (by
        rw [List.getLastD_eq_getLast?, hz]
        simpa using h)
      simp only [List.reverse_nil, List.nil_append] at h2
      have hrne : rest ≠ [] := by
        intro hr
        rw [hr] at h2
        cases h2
      rw [List.getLast?_append,
        getLast?_cons_ne ',' rest hrne, h2]
      rfl
    · rw [csvAux_otherF c0 rest cur hc0 hcm] at h
      have h2 := ih (c0 :: cur) hqr c h
      rw [show (c0 :: cur).reverse ++ rest = cur.reverse ++ c0 :: rest from by simp] at h2
      exact h2

/-- Amended claim C10: `parseCsv` trims each physical line before splitting,
so every parsed row is produced by splitting a trimmed line; consequently,
for a quote-free line the first cell has no leading whitespace and the last
cell has no trailing whitespace.  Whitespace protected by quotes at the
line's edges survives the trim and is preserved in the cell; see the
counterexample. -/
theorem parse_trims_outside_quotes :
    (∀ text row, row ∈ parseCsv text → ∃ l, row = splitCsvLine (trimChars l))
    ∧ (∀ l, '"' ∉ l →
        (∀ cell c, (splitCsvLine (trimChars l)).head? = some cell →
            cell.head? = some c → isWsChar c = false)
        ∧ (∀ cell c, (splitCsvLine (trimChars l)).getLast? = some cell →
            cell.getLast? = some c → isWsChar c = false)) := by
  constructor
  · intro text row hrow
    simp only [parseCsv, List.mem_map, List.mem_filter] at hrow
    obtain ⟨m, ⟨hm, -⟩, rfl⟩ := hrow
    obtain ⟨orig, -, rfl⟩ := hm
    exact ⟨orig, rfl⟩
  · intro l hql
    have hqm : '"' ∉ trimChars l := fun hmem => hql (mem_trimChars hmem)
    constructor
    · intro cell c hcell hc
      have hhd : (splitCsvLineAux (trimChars l) [] false).headD [] = cell := by
        show (splitCsvLine (trimChars l)).headD [] = cell
        rw [List.headD_eq_head?_getD, hcell]
        rfl
      have h2 := csvAux_head_src (trimChars l) [] hqm c (by rw [hhd]; exact hc)
      simp only [List.reverse_nil, List.nil_append] at h2
      exact trim_head_not_ws l c h2
    · intro cell c hcell hc
      have hlast : (splitCsvLineAux (trimChars l) [] false).getLastD [] = cell := by
        show (splitCsvLine (trimChars l)).getLastD [] = cell
        rw [List.getLastD_eq_getLast?, hcell]
        rfl
      have h2 := csvAux_last_src (trimChars l) [] hqm c (by rw [hlast]; exact hc)
      simp only [List.reverse_nil, List.nil_append] at h2
      exact trim_last_not_ws l c h2

/-- Witness for the amended C10: a quote-free line with surrounding blanks
parses with a whitespace-free first-cell boundary, and a parsed row from a
real text is the split of a trimmed line. -/
theorem parse_trims_outside_quotes_witness :
    isWsChar 'x' = false
    ∧ (∃ l, [cs "x ", cs " y"] = splitCsvLine (trimChars l)) := by
  constructor
  · exact (parse_trims_outside_quotes.2 (cs "  x") (by decide)).1 (cs "x") 'x'
      (by decide) (by decide)
  · exact parse_trims_outside_quotes.1 (cs "  x , y  \n") [cs "x ", cs " y"] (by decide)

/-- Counterexample to claim C10 as stated: whitespace inside quotes in the
outermost field is preserved — the line consisting of the quoted field
`" a"` parses to a row whose first cell starts with a space. -/
theorem parse_trim_quoted_ws_cex :
    parseCsv (cs "\" a\"") = [[cs " a"]]
    ∧ ((parseCsv (cs "\" a\"")).headD []).headD [] = ' ' :: cs "a"
    ∧ isWsChar ' ' = true := by
  refine ⟨by decide, by decide, by decide⟩

/-- Witness for C9 at the all-absent snapshot. -/
theorem restore_permissive_witness :
    (restoreFromLocal { initState with
        storage := StorageCell.blob ⟨none, none, none⟩ }).cases = []
    ∧ (restoreFromLocal { initState with
        storage := StorageCell.blob ⟨none, none, none⟩ }).sourceFile = []
    ∧ (restoreFromLocal { initState with
        storage := StorageCell.blob ⟨none, none, none⟩ }).lastSavedAt = none :=
  restore_permissive.2 ⟨none, none, none⟩ rfl rfl rfl

end TestCaseHelper
